import Mathlib

/-!
# Verification of the deck-sampling core of `mtg_data`

Shallow embedding of `mtg/decks.py` (`Deck`, `DeckPool`, `DeckSampler`) and
`mtg/tags.py` (`Tags`), together with proofs of the specified properties.

Modelling conventions:
* Python sets materialised as `np.array`s become Lean lists; the list order
  stands for the arbitrary but fixed array order.
* `np.random.*` is abstracted by an `Oracle`: an infinite stream of natural
  numbers; the cell drawn at stream position `p` from pool `xs` is
  `xs[stream p % xs.length]`.
* the unbounded backfill loop of `Deck.choice` is given explicit `fuel`;
  `none` means the loop has not finished within `fuel` iterations (the Python
  loop would still be running).
* Python exceptions become an `Except` error value.
-/

set_option autoImplicit false

namespace MtgData

/-- A sampled row: a list of card-name strings (one per column). -/
abbrev Row := List String

/-- Abstraction of numpy's pseudo-random generator: an infinite stream of
natural numbers. -/
abbrev Oracle := ℕ → ℕ

/-- Errors raised by the Python code: `DeckError` (raised explicitly in
`decks.py`) and `ValueError` (raised inside numpy, e.g. by `np.random.choice`
on an empty pool or `np.concatenate` on an empty list of arrays). -/
inductive PyError where
  | deckError (msg : String)
  | valueError (msg : String)
  deriving DecidableEq, Repr

deriving instance DecidableEq for Except

/-- The `Deck` object of `mtg/decks.py` after `__init__` has run; field names
follow the Python attribute names (`self.cardnames`, `self.nonland_cardnames`,
`self.compliment_cardnames`, `self.nonland_compliment_cardnames`,
`self._dropcards`, `self.ignore_lands`, `self.name`). -/
structure Deck where
  cardnames : List String
  nonland_cardnames : List String
  compliment_cardnames : List String
  nonland_compliment_cardnames : List String
  dropcards : List String
  ignore_lands : Bool
  name : String
  deriving DecidableEq, Repr

/-- Python `str.replace` on character lists: scan left to right and replace
each non-overlapping occurrence of the (non-empty) pattern.  The fuel is the
scan position budget; one character is consumed per step, so fuel equal to
the input length is always enough. -/
def replaceCharsAux (pat rep : List Char) : ℕ → List Char → List Char
  | 0, l => l
  | _, [] => []
  | fuel + 1, c :: cs =>
    if (c :: cs).take pat.length = pat then
      rep ++ replaceCharsAux pat rep fuel ((c :: cs).drop pat.length)
    else
      c :: replaceCharsAux pat rep fuel cs

/-- Python `s.replace(pat, rep)` (for the non-empty patterns the source
uses). -/
def pyReplace (s pat rep : String) : String :=
  String.mk (replaceCharsAux pat.toList rep.toList s.toList.length s.toList)

/-- Python `s.split(sep)` for a one-character separator, on character lists:
every occurrence splits, empty parts included. -/
def splitChars (sep : Char) : List Char → List (List Char)
  | [] => [[]]
  | c :: cs =>
    match splitChars sep cs with
    | [] => [[]]
    | part :: parts =>
      if c = sep then [] :: part :: parts else (c :: part) :: parts

/-- Python `s.split(sep)` for a one-character separator. -/
def pySplit (s : String) (sep : Char) : List String :=
  (splitChars sep s.toList).map String.mk

/-- Python `s.strip()`: remove leading and trailing whitespace. -/
def pyStrip (s : String) : String :=
  String.mk (((s.toList.dropWhile Char.isWhitespace).reverse.dropWhile
    Char.isWhitespace).reverse)

/-- `Deck._split_two_part_cards`:
`{c.strip() for cardname in cardnames for c in cardname.replace('//', '/').split('/')}`
(the trailing `dedup` realises the Python set comprehension). -/
def split_two_part_cards (cardnames : List String) : List String :=
  ((cardnames.map fun c => (pySplit (pyReplace c "//" "/") '/').map pyStrip).flatten).dedup

/-- `Deck._fix_weird_characters`: `{_.replace('AE', 'Ae') for _ in cardnames}`.
Note the source replaces "AE" with "Ae", not with the ligature "Æ". -/
def fix_weird_characters (cardnames : List String) : List String :=
  (cardnames.map fun s => pyReplace s "AE" "Ae").dedup

/-- `Deck._apply_generic_remapping`: `remap = {'Seance': 'SÃ©ance'}` (the
replacement string in the source file is literally `S`, U+00C3, U+00A9,
`ance`). -/
def apply_generic_remapping (cardnames : List String) : List String :=
  (cardnames.map fun s => if s = "Seance" then "SÃ©ance" else s).dedup

/-- `Deck._clean_cards`: split, character fix, remap (in that order). -/
def clean_cards (cardnames : List String) : List String :=
  apply_generic_remapping (fix_weird_characters (split_two_part_cards cardnames))

/-- `Deck.__init__`: clean the raw names, drop the cleaned names that are not
in the card universe (kept in `_dropcards`), intersect with the no-lands
universe for `nonland_cardnames`, and build the two complement pools.
`no_lands_universe` stands for `get_card_universe('no_lands')`. -/
def mkDeck (raw : List String) (card_universe : List String)
    (no_lands_universe : List String) (ignore_lands : Bool)
    (name : String := "") : Deck :=
  let cleaned := clean_cards raw
  let cardnames := cleaned.filter fun c => decide (c ∈ card_universe)
  let dropcards := cleaned.filter fun c => decide (c ∉ card_universe)
  let nonland_cardnames := cardnames.filter fun c => decide (c ∈ no_lands_universe)
  let compliment := card_universe.dedup.filter fun c => decide (c ∉ cardnames)
  let nonland_compliment := compliment.filter fun c => decide (c ∈ no_lands_universe)
  ⟨cardnames, nonland_cardnames, compliment, nonland_compliment,
    dropcards, ignore_lands, name⟩

/-- `Deck.num_cards`: `self.cardnames.shape[0]`. -/
def Deck.num_cards (d : Deck) : ℕ := d.cardnames.length

/-- `Deck.max_unique_pairs`: `self.num_cards * (self.num_cards - 1)`. -/
def Deck.max_unique_pairs (d : Deck) : ℕ := d.num_cards * (d.num_cards - 1)

/-- Python `no_lands = no_lands or self.ignore_lands`: the argument is
`None`, `False` or `True`, and Python `or` makes both `None` and `False`
fall back to `self.ignore_lands`. -/
def effectiveNoLands (no_lands : Option Bool) (ignore_lands : Bool) : Bool :=
  no_lands.getD false || ignore_lands

/-- The pool the first `n_in_deck` columns are drawn from:
`self.nonland_cardnames if no_lands else self.cardnames` (with `no_lands`
already resolved to its effective boolean value). -/
def Deck.inPool (d : Deck) (nl : Bool) : List String :=
  if nl then d.nonland_cardnames else d.cardnames

/-- The pool the last `n_not_in_deck` columns are drawn from:
`self.nonland_compliment_cardnames if no_lands else self.compliment_cardnames`. -/
def Deck.notPool (d : Deck) (nl : Bool) : List String :=
  if nl then d.nonland_compliment_cardnames else d.compliment_cardnames

/-- One cell of `np.random.choice(xs, ...)`: the oracle value at stream
position `p`, reduced mod the pool size.  Callers only reach this with a
non-empty pool (`np.random.choice` on an empty pool raises `ValueError`,
which `Deck.choice` checks explicitly). -/
def drawCell (xs : List String) (o : Oracle) (p : ℕ) : String :=
  xs.getD (o p % xs.length) ""

/-- One sampled row: `n_in` cells from `inPool` followed by `n_not` cells
from `notPool`, consuming stream positions `p, ..., p + n_in + n_not - 1`.
This realises one row of the column-wise concatenation
`np.concatenate([c_in, c_not], axis=1)`. -/
def drawRow (inPool notPool : List String) (n_in n_not : ℕ) (o : Oracle) (p : ℕ) : Row :=
  ((List.range n_in).map fun j => drawCell inPool o (p + j)) ++
    ((List.range n_not).map fun j => drawCell notPool o (p + n_in + j))

/-- A batch of `rows` sampled rows starting at stream position `p`. -/
def drawBatch (inPool notPool : List String) (n_in n_not rows : ℕ) (o : Oracle)
    (p : ℕ) : List Row :=
  (List.range rows).map fun r => drawRow inPool notPool n_in n_not o (p + r * (n_in + n_not))

/-- `np.unique(..., axis=0)` deduplicates rows (it also sorts the surviving
rows; no specified property depends on row order, so the embedding keeps
first occurrences). -/
def npUnique (rows : List Row) : List Row := rows.dedup

/-- The draw/dedupe/backfill loop of `Deck.choice` with `force_unique=True`.
The Python code first draws a full batch of `target` rows, dedupes, then
keeps drawing batches sized to the shortfall and deduping the union until
`target` rows survive; starting the accumulator at `c = []` makes that
initial full batch the first iteration of this single loop.  `fuel` bounds
the iteration count; `none` means the loop is still running after `fuel`
iterations. -/
def uniqueLoop (inPool notPool : List String) (n_in n_not target : ℕ) (o : Oracle) :
    ℕ → ℕ → List Row → Option (List Row)
  | 0, _, _ => none
  | fuel + 1, p, c =>
    if c.length < target then
      let need := target - c.length
      let batch := drawBatch inPool notPool n_in n_not need o p
      uniqueLoop inPool notPool n_in n_not target o fuel
        (p + need * (n_in + n_not)) (npUnique (c ++ batch))
    else
      some c

/-- `Deck.choice(size, n_in_deck, n_not_in_deck, force_unique, no_lands)`
with `size = (rows, cols)`.  `.error e` models a raised exception,
`.ok none` a backfill loop still running after `fuel` iterations,
`.ok (some rws)` a normal return of the array `rws`.  Python argument
defaults: `n_in_deck=2`, `n_not_in_deck=0`, `force_unique=True`,
`no_lands=None`.  With `force_unique=False` the source returns
`np.random.choice(self.cardnames, size)`: every cell comes from
`self.cardnames`, ignoring the in-deck/complement split and `no_lands`. -/
def Deck.choice (d : Deck) (rows cols n_in_deck n_not_in_deck : ℕ)
    (force_unique : Bool) (no_lands : Option Bool) (o : Oracle) (fuel : ℕ) :
    Except PyError (Option (List Row)) :=
  let nl := effectiveNoLands no_lands d.ignore_lands
  if n_in_deck + n_not_in_deck ≠ cols then
    .error (.deckError "n_in_deck and n_not_in_deck must sum to the requested number of columns in size")
  else if force_unique then
    if cols = 2 ∧ d.max_unique_pairs < rows then
      .error (.deckError "can't uniquely sample that many cards")
    else
      let inPool := d.inPool nl
      let notPool := d.notPool nl
      if n_in_deck ≠ 0 ∧ inPool = [] then
        .error (.valueError "a must be non-empty")
      else if n_not_in_deck ≠ 0 ∧ notPool = [] then
        .error (.valueError "a must be non-empty")
      else if n_in_deck = 0 ∧ n_not_in_deck = 0 then
        .error (.valueError "need at least one array to concatenate")
      else
        .ok (uniqueLoop inPool notPool n_in_deck n_not_in_deck rows o fuel 0 [])
  else
    if d.cardnames = [] then
      .error (.valueError "a must be non-empty")
    else
      .ok (some (drawBatch d.cardnames [] cols 0 rows o 0))

/-- One Python-level value a `DeckPool`'s member list can end up holding:
`add_decks` appends `Deck`s from lists and, through the `list.append`
fallback, arbitrary non-iterable objects (e.g. an `int`). -/
inductive PoolItem where
  | deck (d : Deck)
  | int (n : ℤ)
  deriving DecidableEq, Repr

/-- The argument of `DeckPool.add_decks`: either a list (Python `+=` extends
the member list) or a single non-iterable object (`+=` raises `TypeError`
on it). -/
inductive AddArg where
  | one (x : PoolItem)
  | many (l : List PoolItem)

/-- `DeckPool.add_decks`: `self.decks += decks` succeeds when the argument is
a list; otherwise it raises `TypeError` and the fallback
`self.decks.append(decks)` runs.  `list.append` accepts any object and never
raises `TypeError`, so the inner `except TypeError: raise DeckError(...)` is
unreachable: a single `Deck` — or any other non-iterable object, e.g. an
`int` — is simply appended. -/
def add_decks (decks : List PoolItem) (arg : AddArg) : Except PyError (List PoolItem) :=
  match arg with
  | .many l => .ok (decks ++ l)
  | .one x => .ok (decks ++ [x])

/-- `int(np.ceil(a / b))` for naturals (`b ≥ 1`). -/
def ceilDiv (a b : ℕ) : ℕ := (a + b - 1) / b

/-- The loop body of `DeckPool.choice`, iterating over the member decks from
running index `i`: chunk `i` covers the result rows `[i*cs, min ((i+1)*cs) k)`
and is produced by deck `i`'s own `choice` call; the loop breaks as soon as
the chunk's upper bound `i1` reaches `k`.  Each deck draws from its own
oracle stream `os i`, abstracting independent draws from the shared RNG.
(Python writes the chunks into a pre-allocated `np.empty` array; since the
chunk index ranges tile `[0, k)` exactly, that equals concatenating the
chunks.  The `[]` case is unreachable from `DeckPool.choice`: the last deck
always has `i1 = k`.) -/
def poolChoiceGo (k cols cs n_in n_not : ℕ) (force_unique : Bool)
    (no_lands : Option Bool) (os : ℕ → Oracle) (fuel : ℕ) :
    List Deck → ℕ → Except PyError (Option (List Row))
  | [], _ => .ok (some [])
  | d :: rest, i =>
    let i0 := i * cs
    let i1 := min ((i + 1) * cs) k
    match d.choice (i1 - i0) cols n_in n_not force_unique no_lands (os i) fuel with
    | .error e => .error e
    | .ok none => .ok none
    | .ok (some chunk) =>
      if i1 = k then .ok (some chunk)
      else
        match poolChoiceGo k cols cs n_in n_not force_unique no_lands os fuel rest (i + 1) with
        | .error e => .error e
        | .ok none => .ok none
        | .ok (some rws) => .ok (some (chunk ++ rws))

/-- `DeckPool.choice(size, n_in_deck, n_not_in_deck, **kwargs)` for a pool
whose ordered member list is `decks`:
`chunksize = int(np.ceil(size[0] / self.num_decks))` (a `ZeroDivisionError`
for an empty pool), then each member deck fills one contiguous chunk. -/
def DeckPool.choice (decks : List Deck) (rows cols n_in_deck n_not_in_deck : ℕ)
    (force_unique : Bool) (no_lands : Option Bool) (os : ℕ → Oracle) (fuel : ℕ) :
    Except PyError (Option (List Row)) :=
  if decks.length = 0 then
    .error (.valueError "division by zero")
  else
    poolChoiceGo rows cols (ceilDiv rows decks.length) n_in_deck n_not_in_deck
      force_unique no_lands os fuel decks 0

/-- `DeckSampler.sample(n, f_true, f_half, no_lands)`.  The fractions are
modelled as rationals; `int(n * f)` truncates toward zero, which on the
validated range `0 ≤ f` is the floor.  Python sets `err_msg` in each failing
validation in turn, so when several checks fail the *last* failing check's
message is raised; the checks below are therefore tested in reverse order.
`np.zeros(n)` followed by `target[:ntrue] = 1` is the label list
`replicate ntrue 1 ++ replicate (n - ntrue) 0`.  The three sampling calls
(`deckpool` true pairs, `deckpool` half pairs, `allcards` false pairs) draw
from independent oracle streams. -/
def DeckSampler.sample (deckpool : List Deck) (allcards : Deck) (n : ℕ)
    (f_true f_half : ℚ) (no_lands : Bool) (os1 os2 : ℕ → Oracle) (o3 : Oracle)
    (fuel : ℕ) : Except PyError (Option (List Row × List ℕ)) :=
  if ¬ (0 ≤ f_true + f_half ∧ f_true + f_half ≤ 1) then
    .error (.deckError "f_true + f_half must be between 0 and 1")
  else if ¬ (0 ≤ f_half ∧ f_half ≤ 1) then
    .error (.deckError "f_half must be between 0 and 1")
  else if ¬ (0 ≤ f_true ∧ f_true ≤ 1) then
    .error (.deckError "f_true must be between 0 and 1")
  else
    match DeckPool.choice deckpool ⌊(n : ℚ) * f_true⌋.toNat 2 2 0 true
        (some no_lands) os1 fuel with
    | .error e => .error e
    | .ok none => .ok none
    | .ok (some r1) =>
      match DeckPool.choice deckpool ⌊(n : ℚ) * f_half⌋.toNat 2 1 1 true
          (some no_lands) os2 fuel with
      | .error e => .error e
      | .ok none => .ok none
      | .ok (some r2) =>
        match allcards.choice (n - ⌊(n : ℚ) * f_true⌋.toNat - ⌊(n : ℚ) * f_half⌋.toNat)
            2 2 0 true (some no_lands) o3 fuel with
        | .error e => .error e
        | .ok none => .ok none
        | .ok (some r3) =>
          .ok (some (r1 ++ r2 ++ r3,
            List.replicate ⌊(n : ℚ) * f_true⌋.toNat 1
              ++ List.replicate (n - ⌊(n : ℚ) * f_true⌋.toNat) 0))

/-! ## Tag graph (`mtg/tags.py`, class `Tags`) -/

/-- A YAML tag taxonomy: an insertion-ordered mapping from tag names to
either `null` (a leaf tag, `none`) or a nested mapping (Python dicts
preserve insertion order). -/
inductive TagDict where
  | mk : List (String × Option TagDict) → TagDict

/-- An `nx.DiGraph` restricted to what `tags.py` uses: insertion-ordered
node and edge lists. -/
structure DiGraph where
  nodes : List String
  edges : List (String × String)
  deriving DecidableEq, Repr

/-- `nx.DiGraph.add_node`: no-op when the node exists. -/
def DiGraph.addNode (g : DiGraph) (v : String) : DiGraph :=
  if v ∈ g.nodes then g else ⟨g.nodes ++ [v], g.edges⟩

/-- `nx.DiGraph.add_edge`: adds both endpoints as nodes (source first) as a
side effect, then the edge. -/
def DiGraph.addEdge (g : DiGraph) (u v : String) : DiGraph :=
  let g := (g.addNode u).addNode v
  if (u, v) ∈ g.edges then g else ⟨g.nodes, g.edges ++ [(u, v)]⟩

mutual

/-- `Tags._tagdict_to_nodes(parent_node, tagdict)` on an explicit graph:
for each `(tag, val)` entry add the edge `parent:tag → parent` and recurse
into dict values (`None` values are leaves). -/
def tagdict_to_nodes (g : DiGraph) (parent_node : String) : TagDict → DiGraph
  | .mk entries => tagdict_entries g parent_node entries

/-- The `for (tag, val) in tagdict.items()` loop of `Tags._tagdict_to_nodes`. -/
def tagdict_entries (g : DiGraph) (parent_node : String) :
    List (String × Option TagDict) → DiGraph
  | [] => g
  | (tag, val) :: rest =>
    let tag_node := parent_node ++ ":" ++ tag
    let g1 := g.addEdge tag_node parent_node
    let g2 := match val with
      | none => g1
      | some td => tagdict_to_nodes g1 tag_node td
    tagdict_entries g2 parent_node rest

end

/-- `Tags.__init__`: start from a graph holding only the root node `mtg`,
then fold the taxonomy in via `_tagdict_to_nodes`. -/
def buildTags (tagdict : TagDict) : DiGraph :=
  tagdict_to_nodes (DiGraph.addNode ⟨[], []⟩ "mtg") "mtg" tagdict

/-- `nx.edge_dfs(graph, source, orientation='reverse')`: a depth-first edge
traversal that, at a node `v`, follows the stored edges pointing *to* `v`
(reverse orientation), yields each such edge `(child, parent)` exactly once,
and descends into the child.  `fuel` bounds the recursion; the claims
evaluate this on concrete graphs with ample fuel. -/
def edgeDfsRev (g : DiGraph) :
    ℕ → List String → List (String × String) → List (String × String)
  | 0, _, _ => []
  | _ + 1, [], _ => []
  | fuel + 1, v :: stack, visited =>
    match g.edges.filter (fun e => decide (e.2 = v) && decide (e ∉ visited)) with
    | [] => edgeDfsRev g fuel stack visited
    | e :: _ => e :: edgeDfsRev g fuel (e.1 :: v :: stack) (e :: visited)

/-- `Tags.child_parent_iter`: `(e[0], e[1]) for e in nx.edge_dfs(self.tags,
'mtg', orientation='reverse')`. -/
def child_parent_iter (g : DiGraph) : List (String × String) :=
  edgeDfsRev g (2 * g.edges.length + g.nodes.length + 1) ["mtg"] []

/-- Reachability from the root `mtg` following the stored child→parent edges
in reverse orientation (parent to child), as `edge_dfs` does. -/
inductive ReachableRev (g : DiGraph) : String → Prop where
  | root : ReachableRev g "mtg"
  | step {c p : String} : ReachableRev g p → (c, p) ∈ g.edges → ReachableRev g c

/-- The concrete taxonomy of the round-trip claim:
`{"removal": {"enchantment": None, "artifact": None}}`. -/
def exampleTaxonomy : TagDict :=
  .mk [("removal", some (.mk [("enchantment", none), ("artifact", none)]))]

/-- A concrete random stream for a 2-column in-deck draw over a pool of `m`
cards: row `r` of the first batch reads positions `2r` and `2r + 1`, so this
stream makes row `r` the pair of pool indices `(r / m, r % m)` — the first
`m * m` rows enumerate all distinct pairs. -/
def pairOracle (m : ℕ) : Oracle := fun p =>
  if p % 2 = 0 then (p / 2) / m else (p / 2) % m

/-- Well-formedness of one sampled row: correct width, the first `n_in`
cells drawn from `inP`, the remaining cells drawn from `notP`. -/
def RowOk (inP notP : List String) (n_in n_not : ℕ) (r : Row) : Prop :=
  r.length = n_in + n_not ∧ (∀ x ∈ r.take n_in, x ∈ inP) ∧ ∀ x ∈ r.drop n_in, x ∈ notP

/-! ## Helper lemmas about the sampling primitives -/

theorem drawCell_mem (xs : List String) (o : Oracle) (p : ℕ) (h : xs ≠ []) :
    drawCell xs o p ∈ xs := by
  have hlen : 0 < xs.length := List.length_pos.mpr h
  have hlt : o p % xs.length < xs.length := Nat.mod_lt _ hlen
  rw [drawCell, List.getD_eq_getElem _ _ hlt]
  exact List.getElem_mem hlt

theorem length_drawRow (inP notP : List String) (n_in n_not : ℕ) (o : Oracle) (p : ℕ) :
    (drawRow inP notP n_in n_not o p).length = n_in + n_not := by
  simp [drawRow]

theorem drawRow_ok (inP notP : List String) (n_in n_not : ℕ) (o : Oracle) (p : ℕ)
    (hin : n_in ≠ 0 → inP ≠ []) (hnot : n_not ≠ 0 → notP ≠ []) :
    RowOk inP notP n_in n_not (drawRow inP notP n_in n_not o p) := by
  have hlen : ((List.range n_in).map fun j => drawCell inP o (p + j)).length = n_in := by
    simp
  refine ⟨length_drawRow .., ?_, ?_⟩
  · rw [drawRow, List.take_left' hlen]
    intro x hx
    obtain ⟨j, _, rfl⟩ := List.mem_map.mp hx
    have hn : n_in ≠ 0 := by
      rintro rfl
      simp at hx
    exact drawCell_mem _ _ _ (hin hn)
  · rw [drawRow, List.drop_left' hlen]
    intro x hx
    obtain ⟨j, _, rfl⟩ := List.mem_map.mp hx
    have hn : n_not ≠ 0 := by
      rintro rfl
      simp at hx
    exact drawCell_mem _ _ _ (hnot hn)

theorem length_drawBatch (inP notP : List String) (n_in n_not rows : ℕ) (o : Oracle)
    (p : ℕ) : (drawBatch inP notP n_in n_not rows o p).length = rows := by
  simp [drawBatch]

theorem mem_drawBatch (inP notP : List String) (n_in n_not rows : ℕ) (o : Oracle)
    (p : ℕ) (r : Row) (h : r ∈ drawBatch inP notP n_in n_not rows o p) :
    ∃ i, r = drawRow inP notP n_in n_not o (p + i * (n_in + n_not)) := by
  obtain ⟨i, _, rfl⟩ := List.mem_map.mp h
  exact ⟨i, rfl⟩

/-- Partial correctness of the backfill loop: whatever the oracle, if the
loop returns within its fuel then the result has exactly `target` rows, the
rows are pairwise distinct, and every row is well formed. -/
theorem uniqueLoop_ok (inP notP : List String) (n_in n_not target : ℕ) (o : Oracle)
    (hin : n_in ≠ 0 → inP ≠ []) (hnot : n_not ≠ 0 → notP ≠ []) :
    ∀ (fuel p : ℕ) (c rws : List Row), c.Nodup → c.length ≤ target →
      (∀ r ∈ c, RowOk inP notP n_in n_not r) →
      uniqueLoop inP notP n_in n_not target o fuel p c = some rws →
      rws.length = target ∧ rws.Nodup ∧ ∀ r ∈ rws, RowOk inP notP n_in n_not r
  | 0, p, c, rws, _, _, _, h => by simp [uniqueLoop] at h
  | fuel + 1, p, c, rws, hnd, hle, hok, h => by
    rw [uniqueLoop] at h
    split at h
    · rename_i hlt
      refine uniqueLoop_ok inP notP n_in n_not target o hin hnot fuel _ _ rws
        (List.nodup_dedup _) ?_ ?_ h
      · calc (npUnique (c ++ drawBatch inP notP n_in n_not (target - c.length) o p)).length
            ≤ (c ++ drawBatch inP notP n_in n_not (target - c.length) o p).length :=
              (List.dedup_sublist _).length_le
          _ = c.length + (target - c.length) := by
              rw [List.length_append, length_drawBatch]
          _ = target := by omega
      · intro r hr
        rcases List.mem_append.mp (List.mem_dedup.mp hr) with hr | hr
        · exact hok r hr
        · obtain ⟨i, rfl⟩ := mem_drawBatch _ _ _ _ _ _ _ _ hr
          exact drawRow_ok _ _ _ _ _ _ hin hnot
    · rename_i hge
      cases h
      exact ⟨by omega, hnd, hok⟩

/-- Partial correctness of `Deck.choice` with `force_unique=True`: on any
normal return the array has exactly `rows` pairwise-distinct well-formed
rows over the effective pools. -/
theorem Deck.choice_unique_ok (d : Deck) (rows cols n_in n_not : ℕ)
    (nl : Option Bool) (o : Oracle) (fuel : ℕ) (rws : List Row)
    (h : d.choice rows cols n_in n_not true nl o fuel = .ok (some rws)) :
    rws.length = rows ∧ rws.Nodup ∧
      ∀ r ∈ rws, RowOk (d.inPool (effectiveNoLands nl d.ignore_lands))
        (d.notPool (effectiveNoLands nl d.ignore_lands)) n_in n_not r := by
  simp only [Deck.choice] at h
  split_ifs at h with h1 h2 h3 h4 h5
  simp only [Except.ok.injEq] at h
  push_neg at h3 h4
  exact uniqueLoop_ok _ _ _ _ _ _ h3 h4 fuel 0 [] rws (by simp) (by simp) (by simp) h

/-- On any normal return, `Deck.choice` (either branch) yields exactly
`rows` rows of width `cols`. -/
theorem Deck.choice_length (d : Deck) (rows cols n_in n_not : ℕ) (fu : Bool)
    (nl : Option Bool) (o : Oracle) (fuel : ℕ) (rws : List Row)
    (h : d.choice rows cols n_in n_not fu nl o fuel = .ok (some rws)) :
    rws.length = rows ∧ ∀ r ∈ rws, r.length = cols := by
  have hcols : n_in + n_not = cols := by
    by_contra hne
    simp only [Deck.choice, if_pos hne] at h
    exact Except.noConfusion h
  cases fu with
  | true =>
    obtain ⟨hlen, _, hok⟩ := Deck.choice_unique_ok d rows cols n_in n_not nl o fuel rws h
    exact ⟨hlen, fun r hr => by rw [(hok r hr).1, hcols]⟩
  | false =>
    rw [Deck.choice, if_neg (by omega), if_neg (by simp)] at h
    split_ifs at h with h1
    simp only [Except.ok.injEq, Option.some.injEq] at h
    cases h
    refine ⟨length_drawBatch .., fun r hr => ?_⟩
    obtain ⟨i, rfl⟩ := mem_drawBatch _ _ _ _ _ _ _ _ hr
    simpa using length_drawRow d.cardnames [] cols 0 o _

/-- Invariant of the chunking loop of `DeckPool.choice`: starting at deck
index `i` with `i * cs < k` and enough decks left to cover row `k`, a
successful run returns the rows `[i*cs, k)`, and the slice belonging to
index `j` is exactly what deck `j`'s own `choice` call returned. -/
theorem poolChoiceGo_ok (k cols cs n_in n_not : ℕ) (fu : Bool) (nl : Option Bool)
    (os : ℕ → Oracle) (fuel : ℕ) :
    ∀ (ds : List Deck) (i : ℕ) (rws : List Row),
      i * cs < k → k ≤ (i + ds.length) * cs →
      poolChoiceGo k cols cs n_in n_not fu nl os fuel ds i = .ok (some rws) →
      rws.length = k - i * cs ∧
        ∀ j, i ≤ j → j * cs < k →
          ∃ d chunk, ds[j - i]? = some d ∧
            d.choice (min ((j + 1) * cs) k - j * cs) cols n_in n_not fu nl (os j) fuel
              = .ok (some chunk) ∧
            chunk = (rws.drop (j * cs - i * cs)).take (min ((j + 1) * cs) k - j * cs)
  | [], i, rws, hlt, hcov, _ => by
    simp only [List.length_nil, Nat.add_zero] at hcov
    omega
  | d :: rest, i, rws, hlt, hcov, hmain => by
    rw [poolChoiceGo] at hmain
    split at hmain
    · exact Except.noConfusion hmain
    · simp at hmain
    · rename_i chunk hc
      have hchunklen : chunk.length = min ((i + 1) * cs) k - i * cs :=
        (Deck.choice_length d _ cols n_in n_not fu nl (os i) fuel chunk hc).1
      have e1 : (i + 1) * cs = i * cs + cs := by ring
      split at hmain
      · rename_i hbreak
        simp only [Except.ok.injEq, Option.some.injEq] at hmain
        subst hmain
        refine ⟨by omega, fun j hij hjk => ?_⟩
        have hji : j = i := by
          by_contra hne
          have h2 : (i + 1) * cs ≤ j * cs := Nat.mul_le_mul_right cs (by omega)
          omega
        subst hji
        refine ⟨d, chunk, by simp, hc, ?_⟩
        rw [Nat.sub_self, List.drop_zero, List.take_of_length_le (by omega)]
      · rename_i hbreak
        split at hmain
        · exact Except.noConfusion hmain
        · simp at hmain
        · rename_i rest_rws hrec
          simp only [Except.ok.injEq, Option.some.injEq] at hmain
          subst hmain
          have hmid : (i + 1) * cs < k := by omega
          have hcov' : k ≤ (i + 1 + rest.length) * cs := by
            have h2 : i + 1 + rest.length = i + (d :: rest).length := by
              simp only [List.length_cons]
              omega
            rw [h2]
            exact hcov
          obtain ⟨hrestlen, hrest⟩ :=
            poolChoiceGo_ok k cols cs n_in n_not fu nl os fuel rest (i + 1)
              rest_rws hmid hcov' hrec
          have hchunkcs : chunk.length = (i + 1) * cs - i * cs := by omega
          refine ⟨by rw [List.length_append]; omega, fun j hij hjk => ?_⟩
          rcases Nat.eq_or_lt_of_le hij with rfl | hgt
          · refine ⟨d, chunk, by simp, hc, ?_⟩
            rw [Nat.sub_self, List.drop_zero,
              List.take_append_eq_append_take,
              List.take_of_length_le (by omega),
              show min ((i + 1) * cs) k - i * cs - chunk.length = 0 by omega,
              List.take_zero, List.append_nil]
          · obtain ⟨d', chunk', hget, hc', hslice⟩ := hrest j hgt hjk
            refine ⟨d', chunk', ?_, hc', ?_⟩
            · rw [show j - i = (j - (i + 1)) + 1 by omega,
                List.getElem?_cons_succ]
              exact hget
            · rw [hslice]
              have h3 : (i + 1) * cs ≤ j * cs := Nat.mul_le_mul_right cs (by omega)
              have hsplit : j * cs - i * cs = chunk.length + (j * cs - (i + 1) * cs) := by
                omega
              rw [hsplit, List.drop_append]

/-- `DeckPool.choice` on success: exactly `k` rows, and the slice
`[j*cs, min ((j+1)*cs) k)` of the result is exactly the array returned by
member deck `j`'s own `choice` call (`cs = ceil(k / num_decks)`). -/
theorem DeckPool.choice_ok (decks : List Deck) (k cols n_in n_not : ℕ) (fu : Bool)
    (nl : Option Bool) (os : ℕ → Oracle) (fuel : ℕ) (rws : List Row)
    (hne : decks ≠ []) (hk : 1 ≤ k)
    (h : DeckPool.choice decks k cols n_in n_not fu nl os fuel = .ok (some rws)) :
    rws.length = k ∧
      ∀ j, j * ceilDiv k decks.length < k →
        ∃ d chunk, decks[j]? = some d ∧
          d.choice (min ((j + 1) * ceilDiv k decks.length) k - j * ceilDiv k decks.length)
            cols n_in n_not fu nl (os j) fuel = .ok (some chunk) ∧
          chunk = (rws.drop (j * ceilDiv k decks.length)).take
            (min ((j + 1) * ceilDiv k decks.length) k - j * ceilDiv k decks.length) := by
  have hlen : decks.length ≠ 0 := fun h0 => hne (List.length_eq_zero.mp h0)
  rw [DeckPool.choice, if_neg hlen] at h
  have hcov : k ≤ (0 + decks.length) * ceilDiv k decks.length := by
    have h1 : (k + decks.length - 1) % decks.length < decks.length :=
      Nat.mod_lt _ (by omega)
    have h2 := Nat.div_add_mod (k + decks.length - 1) decks.length
    have h3 : decks.length * ceilDiv k decks.length + (k + decks.length - 1) % decks.length
        = k + decks.length - 1 := h2
    have h4 : (0 + decks.length) * ceilDiv k decks.length
        = decks.length * ceilDiv k decks.length := by ring_nf
    omega
  obtain ⟨h5, h6⟩ := poolChoiceGo_ok k cols (ceilDiv k decks.length) n_in n_not fu nl
    os fuel decks 0 rws (by omega) hcov h
  refine ⟨by omega, fun j hj => ?_⟩
  obtain ⟨d, chunk, hget, hc, hslice⟩ := h6 j (Nat.zero_le j) hj
  exact ⟨d, chunk, by simpa using hget, hc, by simpa using hslice⟩

/-- Row count of a successful `DeckPool.choice`, also for `k = 0`. -/
theorem DeckPool.choice_rows (decks : List Deck) (k cols n_in n_not : ℕ)
    (fu : Bool) (nl : Option Bool) (os : ℕ → Oracle) (fuel : ℕ) (rws : List Row)
    (hne : decks ≠ [])
    (h : DeckPool.choice decks k cols n_in n_not fu nl os fuel = .ok (some rws)) :
    rws.length = k := by
  rcases Nat.eq_zero_or_pos k with rfl | hk
  · cases decks with
    | nil => exact absurd rfl hne
    | cons d rest =>
      have hlen : (d :: rest).length ≠ 0 := by simp
      rw [DeckPool.choice, if_neg hlen, poolChoiceGo] at h
      split at h
      · exact Except.noConfusion h
      · simp at h
      · rename_i chunk hc
        rw [if_pos (by omega)] at h
        simp only [Except.ok.injEq, Option.some.injEq] at h
        subst h
        have := (Deck.choice_length d _ cols n_in n_not fu nl (os 0) fuel _ hc).1
        omega
  · exact (DeckPool.choice_ok decks k cols n_in n_not fu nl os fuel rws hne hk h).1

theorem effectiveNoLands_none (b : Bool) : effectiveNoLands none b = b := by
  cases b <;> rfl

theorem effectiveNoLands_false (b : Bool) : effectiveNoLands (some false) b = b := by
  cases b <;> rfl

theorem getD_inj_of_nodup (l : List String) (hnd : l.Nodup) (i j : ℕ)
    (hi : i < l.length) (hj : j < l.length) (h : l.getD i "" = l.getD j "") : i = j := by
  rw [List.getD_eq_getElem _ _ hi, List.getD_eq_getElem _ _ hj] at h
  exact (hnd.getElem_inj_iff).mp h

/-- Evaluation of the `force_unique=True` branch of `Deck.choice` when all
validation checks pass. -/
theorem Deck.choice_unique_eval (d : Deck) (rows cols n_in n_not : ℕ)
    (nl : Option Bool) (o : Oracle) (fuel : ℕ)
    (hcols : n_in + n_not = cols)
    (hcap : ¬(cols = 2 ∧ d.max_unique_pairs < rows))
    (hin : ¬(n_in ≠ 0 ∧ d.inPool (effectiveNoLands nl d.ignore_lands) = []))
    (hnot : ¬(n_not ≠ 0 ∧ d.notPool (effectiveNoLands nl d.ignore_lands) = []))
    (hnz : ¬(n_in = 0 ∧ n_not = 0)) :
    d.choice rows cols n_in n_not true nl o fuel =
      .ok (uniqueLoop (d.inPool (effectiveNoLands nl d.ignore_lands))
        (d.notPool (effectiveNoLands nl d.ignore_lands)) n_in n_not rows o fuel 0 []) := by
  rw [Deck.choice, if_neg (show ¬n_in + n_not ≠ cols by omega),
    if_pos (show (true : Bool) = true from rfl), if_neg hcap, if_neg hin,
    if_neg hnot, if_neg hnz]

/-- Under `pairOracle m`, row `r` of the first batch of a `(rows, 2)` in-deck
draw is the pair of pool elements at indices `(r / m, r % m)`. -/
theorem drawRow_pairOracle (inP notP : List String) (r : ℕ)
    (hm : 0 < inP.length) (hr : r < inP.length * inP.length) :
    drawRow inP notP 2 0 (pairOracle inP.length) (0 + r * (2 + 0)) =
      [inP.getD (r / inP.length) "", inP.getD (r % inP.length) ""] := by
  have h0 : (0 : ℕ) + r * (2 + 0) = r * 2 := by omega
  have hcell0 : pairOracle inP.length (r * 2) = r / inP.length := by
    rw [pairOracle]
    rw [if_pos (by omega)]
    congr 1
    omega
  have hcell1 : pairOracle inP.length (r * 2 + 1) = r % inP.length := by
    rw [pairOracle]
    rw [if_neg (by omega)]
    congr 1
    omega
  rw [h0, drawRow]
  simp only [List.range_succ, List.range_zero, List.nil_append, List.map_append,
    List.map_cons, List.map_nil, List.append_nil]
  rw [drawCell, drawCell, Nat.add_zero, hcell0, hcell1]
  have hdiv : r / inP.length % inP.length = r / inP.length :=
    Nat.mod_eq_of_lt ((Nat.div_lt_iff_lt_mul hm).mpr hr)
  have hmod : r % inP.length % inP.length = r % inP.length :=
    Nat.mod_eq_of_lt (Nat.mod_lt _ hm)
  rw [hdiv, hmod]
  rfl

/-- The first batch drawn under `pairOracle` is duplicate-free when the pool
is duplicate-free and at most `m^2` rows are requested. -/
theorem drawBatch_pairOracle_nodup (inP notP : List String) (k : ℕ)
    (hnd : inP.Nodup) (hm : 0 < inP.length) (hk : k ≤ inP.length * inP.length) :
    (drawBatch inP notP 2 0 k (pairOracle inP.length) 0).Nodup := by
  rw [drawBatch]
  refine List.Nodup.map_on ?_ (List.nodup_range k)
  intro r hr s hs hf
  rw [List.mem_range] at hr hs
  rw [drawRow_pairOracle inP notP r hm (by omega),
    drawRow_pairOracle inP notP s hm (by omega)] at hf
  simp only [List.cons.injEq, and_true] at hf
  have hdr : r / inP.length < inP.length := (Nat.div_lt_iff_lt_mul hm).mpr (by omega)
  have hds : s / inP.length < inP.length := (Nat.div_lt_iff_lt_mul hm).mpr (by omega)
  have h1 : r / inP.length = s / inP.length :=
    getD_inj_of_nodup inP hnd _ _ hdr hds hf.1
  have h2 : r % inP.length = s % inP.length :=
    getD_inj_of_nodup inP hnd _ _ (Nat.mod_lt _ hm) (Nat.mod_lt _ hm) hf.2
  have h3 := Nat.div_add_mod r inP.length
  have h4 := Nat.div_add_mod s inP.length
  have h5 : inP.length * (r / inP.length) = inP.length * (s / inP.length) := by rw [h1]
  omega

/-- With `pairOracle` and fuel 2 the backfill loop finishes: the first batch
is already duplicate-free, so one draw plus the final length check suffice. -/
theorem uniqueLoop_pairOracle (inP notP : List String) (k : ℕ)
    (hnd : inP.Nodup) (hm : 0 < inP.length) (hk : k ≤ inP.length * inP.length) :
    uniqueLoop inP notP 2 0 k (pairOracle inP.length) 2 0 [] =
      some (drawBatch inP notP 2 0 k (pairOracle inP.length) 0) := by
  have hbn := drawBatch_pairOracle_nodup inP notP k hnd hm hk
  have hbl := length_drawBatch inP notP 2 0 k (pairOracle inP.length) 0
  rcases Nat.eq_zero_or_pos k with rfl | hkpos
  · rw [uniqueLoop, if_neg (by simp)]
    have : drawBatch inP notP 2 0 0 (pairOracle inP.length) 0 = [] :=
      List.length_eq_zero.mp hbl
    rw [this]
  · rw [uniqueLoop, if_pos (by simpa using hkpos)]
    simp only [List.length_nil, Nat.sub_zero, List.nil_append]
    rw [npUnique, List.dedup_eq_self.mpr hbn]
    rw [uniqueLoop, if_neg (by omega)]

/-- For a `(·, 2)` in-deck request, a well-formed row is a pair with both
values in the in-deck pool. -/
theorem RowOk.pair_mem (inP notP : List String) (r : Row)
    (h : RowOk inP notP 2 0 r) : r.length = 2 ∧ ∀ x ∈ r, x ∈ inP := by
  obtain ⟨hl, hin, _⟩ := h
  have hl2 : r.length = 2 := by simpa using hl
  exact ⟨hl2, fun x hx => hin x (by rwa [List.take_of_length_le (by omega)])⟩

/-- In a 2-column in-deck draw over the one-card pool `["a"]` every drawn row
is `["a", "a"]`, so the deduplicated accumulator never exceeds one row and a
target of 2 rows is never reached, whatever the oracle and the fuel. -/
theorem uniqueLoop_stuck (o : Oracle) :
    ∀ (fuel p : ℕ) (c : List Row), c.Nodup → (∀ r ∈ c, r = ["a", "a"]) →
      uniqueLoop ["a"] [] 2 0 2 o fuel p c = none
  | 0, _, _, _, _ => rfl
  | fuel + 1, p, c, hnd, hall => by
    have hrow : ∀ q, drawRow ["a"] [] 2 0 o q = ["a", "a"] := by
      intro q
      simp [drawRow, drawCell, Nat.mod_one, List.range_succ]
    have hlen : c.length ≤ 1 := by
      rcases c with _ | ⟨r1, _ | ⟨r2, t⟩⟩
      · simp
      · simp
      · have h1 : r1 = ["a", "a"] := hall r1 (by simp)
        have h2 : r2 = ["a", "a"] := hall r2 (by simp)
        have h3 : r1 ∉ r2 :: t := (List.nodup_cons.mp hnd).1
        rw [h1, h2] at h3
        exact absurd (List.mem_cons_self _ _) h3
    rw [uniqueLoop, if_pos (by omega)]
    refine uniqueLoop_stuck o fuel _ _ (List.nodup_dedup _) ?_
    intro r hr
    rcases List.mem_append.mp (List.mem_dedup.mp hr) with hr | hr
    · exact hall r hr
    · obtain ⟨i, rfl⟩ := mem_drawBatch _ _ _ _ _ _ _ _ hr
      exact hrow _

/-! ## Claims -/

/-- **C1 (amended).**  For every deck `d` and every `k` with
`1 ≤ k ≤ d.max_unique_pairs`, the force-unique pair sample
`d.choice((k, 2), n_in_deck=2, n_not_in_deck=0, force_unique=True)`:
(a) whenever the draw/dedupe/backfill loop returns — for any random stream
and any number of iterations — it returns exactly `k` pairwise-distinct rows
all of whose values belong to the deck's effective card set
(`nonland_cardnames` when `no_lands` is in effect, `cardnames` otherwise);
(b) provided additionally (the amendment) that the effective card set is
duplicate-free and `k` is at most the square of its size, some random stream
makes the loop terminate (already with fuel 2) with such an array.
The original claim asserted unconditional termination for every
`k ≤ max_unique_pairs`; the counterexample shows that fails when the
effective (non-land) set is smaller than `cardnames`. -/
theorem deck_choice_unique_pairs_amended (d : Deck) (k : ℕ) (hk : 1 ≤ k)
    (hcap : k ≤ d.max_unique_pairs) :
    (∀ (o : Oracle) (fuel : ℕ) (rws : List Row),
        d.choice k 2 2 0 true none o fuel = .ok (some rws) →
        rws.length = k ∧ rws.Nodup ∧
          ∀ r ∈ rws, r.length = 2 ∧ ∀ x ∈ r, x ∈ d.inPool d.ignore_lands) ∧
    ((d.inPool d.ignore_lands).Nodup →
      k ≤ (d.inPool d.ignore_lands).length * (d.inPool d.ignore_lands).length →
      ∃ (o : Oracle) (rws : List Row),
        d.choice k 2 2 0 true none o 2 = .ok (some rws) ∧
          rws.length = k ∧ rws.Nodup ∧
          ∀ r ∈ rws, r.length = 2 ∧ ∀ x ∈ r, x ∈ d.inPool d.ignore_lands) := by
  constructor
  · intro o fuel rws h
    obtain ⟨hlen, hnd, hok⟩ := Deck.choice_unique_ok d k 2 2 0 none o fuel rws h
    rw [effectiveNoLands_none] at hok
    exact ⟨hlen, hnd, fun r hr => (hok r hr).pair_mem⟩
  · intro hnd hk2
    have hm : 0 < (d.inPool d.ignore_lands).length := by
      rcases Nat.eq_zero_or_pos (d.inPool d.ignore_lands).length with h0 | h1
      · rw [h0] at hk2
        omega
      · exact h1
    have hne : d.inPool d.ignore_lands ≠ [] := List.length_pos.mp hm
    have heval := Deck.choice_unique_eval d k 2 2 0 none
      (pairOracle (d.inPool d.ignore_lands).length) 2 rfl
      (by omega)
      (by rw [effectiveNoLands_none]; simp [hne])
      (by simp)
      (by simp)
    rw [effectiveNoLands_none] at heval
    rw [uniqueLoop_pairOracle (d.inPool d.ignore_lands) (d.notPool d.ignore_lands)
      k hnd hm hk2] at heval
    refine ⟨pairOracle (d.inPool d.ignore_lands).length, _, heval,
      length_drawBatch .., drawBatch_pairOracle_nodup _ _ k hnd hm hk2,
      fun r hr => ?_⟩
    obtain ⟨i, rfl⟩ := mem_drawBatch _ _ _ _ _ _ _ _ hr
    exact (drawRow_ok _ _ 2 0 _ _ (fun _ => hne) (fun h0 => absurd rfl h0)).pair_mem

/-- **C1 counterexample.**  The deck built from raw names `a, b, c` over the
universe `{a, b, c}` whose no-lands view is `{a}` (so `b` and `c` are lands)
with the default `ignore_lands=True` has `max_unique_pairs = 6`, yet the
force-unique request for `k = 2 ≤ 6` pair rows never returns: sampling draws
only from the effective non-land set `["a"]`, every candidate row is
`["a","a"]`, and the backfill loop runs forever — for every random stream
and every iteration count the loop is still running.  This refutes the
original claim's termination guarantee. -/
theorem deck_choice_unique_pairs_cex :
    (1 ≤ 2 ∧ 2 ≤ (mkDeck ["a", "b", "c"] ["a", "b", "c"] ["a"] true).max_unique_pairs) ∧
      ¬∃ (o : Oracle) (fuel : ℕ) (rws : List Row),
        (mkDeck ["a", "b", "c"] ["a", "b", "c"] ["a"] true).choice 2 2 2 0 true none o fuel
          = .ok (some rws) := by
  refine ⟨⟨by omega, by decide⟩, ?_⟩
  rintro ⟨o, fuel, rws, h⟩
  have heval := Deck.choice_unique_eval
    (mkDeck ["a", "b", "c"] ["a", "b", "c"] ["a"] true) 2 2 2 0 none o fuel rfl
    (by decide) (by decide) (by simp) (by simp)
  rw [show (mkDeck ["a", "b", "c"] ["a", "b", "c"] ["a"] true).inPool
      (effectiveNoLands none (mkDeck ["a", "b", "c"] ["a", "b", "c"] ["a"] true).ignore_lands)
      = ["a"] from rfl,
    show (mkDeck ["a", "b", "c"] ["a", "b", "c"] ["a"] true).notPool
      (effectiveNoLands none (mkDeck ["a", "b", "c"] ["a", "b", "c"] ["a"] true).ignore_lands)
      = [] from rfl,
    uniqueLoop_stuck o fuel 0 [] (by simp) (by simp)] at heval
  rw [heval] at h
  simp at h

/-- **C1 witness.**  A concrete instance of the amended claim: the two-card
land-free deck `{a, b}`, `k = 2`. -/
theorem deck_choice_unique_pairs_witness :
    ∃ (o : Oracle) (rws : List Row),
      (mkDeck ["a", "b"] ["a", "b"] ["a", "b"] true).choice 2 2 2 0 true none o 2
        = .ok (some rws) ∧ rws.length = 2 ∧ rws.Nodup ∧
        ∀ r ∈ rws, r.length = 2 ∧ ∀ x ∈ r,
          x ∈ (mkDeck ["a", "b"] ["a", "b"] ["a", "b"] true).inPool
            (mkDeck ["a", "b"] ["a", "b"] ["a", "b"] true).ignore_lands :=
  (deck_choice_unique_pairs_amended (mkDeck ["a", "b"] ["a", "b"] ["a", "b"] true) 2
    (by omega) (by decide)).2 (by decide) (by decide)

/-- **C2.**  For every deck, a force-unique request for `k` pair rows with
`k > max_unique_pairs` raises the capacity `DeckError` immediately (the
backfill loop is never entered), where
`max_unique_pairs = num_cards * (num_cards - 1)`; and that capacity check
fires exactly for 2-column force-unique requests: with `cols ≠ 2` or
`force_unique=False`, `choice` never raises the capacity error. -/
theorem deck_choice_capacity (d : Deck) (k : ℕ) (h : d.max_unique_pairs < k) :
    (∀ (nl : Option Bool) (o : Oracle) (fuel : ℕ),
        d.choice k 2 2 0 true nl o fuel
          = .error (.deckError "can't uniquely sample that many cards")) ∧
    d.max_unique_pairs = d.num_cards * (d.num_cards - 1) ∧
    (∀ (rows cols n_in n_not : ℕ) (fu : Bool) (nl : Option Bool) (o : Oracle) (fuel : ℕ),
        cols ≠ 2 ∨ fu = false →
        d.choice rows cols n_in n_not fu nl o fuel
          ≠ .error (.deckError "can't uniquely sample that many cards")) := by
  refine ⟨fun nl o fuel => ?_, rfl, ?_⟩
  · rw [Deck.choice, if_neg (by omega), if_pos (show (true : Bool) = true from rfl),
      if_pos ⟨rfl, h⟩]
  · rintro rows cols n_in n_not fu nl o fuel hdisj heq
    simp only [Deck.choice] at heq
    split_ifs at heq <;>
      first
        | exact Except.noConfusion heq
        | exact PyError.noConfusion (Except.error.inj heq)
        | exact absurd (PyError.deckError.inj (Except.error.inj heq)) (by decide)
        | (rcases hdisj with hcols | hfu <;> simp_all)

/-- **C2 witness.**  A one-card deck has `max_unique_pairs = 0`, so asking
for one unique pair row raises the capacity error. -/
theorem deck_choice_capacity_witness :
    (mkDeck ["a"] ["a"] ["a"] true).choice 1 2 2 0 true none (fun _ => 0) 1
      = .error (.deckError "can't uniquely sample that many cards") :=
  (deck_choice_capacity (mkDeck ["a"] ["a"] ["a"] true) 1 (by decide)).1 none (fun _ => 0) 1

/-- **C3.**  For every deck construction (any raw card-name list, any
universe): the resulting `cardnames` and `_dropcards` are disjoint,
`cardnames` lies inside the card universe, and the dropped names are exactly
the cleaned raw names missing from the universe — they are recorded, not
raised, and construction always produces a deck. -/
theorem deck_construction_invariants (raw card_universe no_lands_universe : List String)
    (ig : Bool) :
    (∀ x ∈ (mkDeck raw card_universe no_lands_universe ig).cardnames,
        x ∉ (mkDeck raw card_universe no_lands_universe ig).dropcards) ∧
    (∀ x ∈ (mkDeck raw card_universe no_lands_universe ig).cardnames,
        x ∈ card_universe) ∧
    (∀ x, x ∈ (mkDeck raw card_universe no_lands_universe ig).dropcards ↔
        x ∈ clean_cards raw ∧ x ∉ card_universe) := by
  refine ⟨fun x hx hx' => ?_, fun x hx => ?_, fun x => ?_⟩
  · rw [mkDeck] at hx hx'
    simp only [List.mem_filter, decide_eq_true_eq] at hx hx'
    exact hx'.2 hx.2
  · rw [mkDeck] at hx
    simp only [List.mem_filter, decide_eq_true_eq] at hx
    exact hx.2
  · rw [mkDeck]
    simp only [List.mem_filter, decide_eq_true_eq]

/-- **C3 witness.**  Concrete instance: raw names `a` (known) and `zz`
(unknown) against the universe `{a, b}`. -/
theorem deck_construction_invariants_witness :
    (∀ x ∈ (mkDeck ["a", "zz"] ["a", "b"] ["a"] true).cardnames,
        x ∉ (mkDeck ["a", "zz"] ["a", "b"] ["a"] true).dropcards) ∧
    (∀ x ∈ (mkDeck ["a", "zz"] ["a", "b"] ["a"] true).cardnames, x ∈ ["a", "b"]) ∧
    (∀ x, x ∈ (mkDeck ["a", "zz"] ["a", "b"] ["a"] true).dropcards ↔
        x ∈ clean_cards ["a", "zz"] ∧ x ∉ ["a", "b"]) :=
  deck_construction_invariants ["a", "zz"] ["a", "b"] ["a"] true

/-- **C4.**  For a non-empty pool and `k ≥ 1`, a successful
`DeckPool.choice((k, cols), ...)` returns exactly `k` rows; with
`cs = ceil(k / num_decks)`, for every deck index `j` with `j*cs < k` the
contiguous slice `[j*cs, min ((j+1)*cs) k)` of the result is exactly the
array produced by member deck `j`'s own `choice` call (decks in insertion
order, the final chunk truncated to end at row `k`), and decks with
`j*cs ≥ k` — those after the truncating chunk — contribute no rows. -/
theorem deckpool_choice_chunks (decks : List Deck) (k cols n_in n_not : ℕ)
    (fu : Bool) (nl : Option Bool) (os : ℕ → Oracle) (fuel : ℕ) (rws : List Row)
    (hne : decks ≠ []) (hk : 1 ≤ k)
    (h : DeckPool.choice decks k cols n_in n_not fu nl os fuel = .ok (some rws)) :
    rws.length = k ∧
      (∀ j, j * ceilDiv k decks.length < k →
        ∃ d chunk, decks[j]? = some d ∧
          d.choice (min ((j + 1) * ceilDiv k decks.length) k - j * ceilDiv k decks.length)
            cols n_in n_not fu nl (os j) fuel = .ok (some chunk) ∧
          chunk = (rws.drop (j * ceilDiv k decks.length)).take
            (min ((j + 1) * ceilDiv k decks.length) k - j * ceilDiv k decks.length)) ∧
      ∀ j, k ≤ j * ceilDiv k decks.length →
        rws.drop (j * ceilDiv k decks.length) = [] := by
  obtain ⟨h1, h2⟩ := DeckPool.choice_ok decks k cols n_in n_not fu nl os fuel rws hne hk h
  exact ⟨h1, h2, fun j hj => List.drop_eq_nil_of_le (by omega)⟩

/-- **C4 witness.**  Two one-card decks, `k = 3`, `cs = 2`: deck 0 fills rows
0–1, deck 1 fills row 2 (truncated chunk). -/
theorem deckpool_choice_chunks_witness :
    ([mkDeck ["a"] ["a"] ["a"] true, mkDeck ["b"] ["b"] ["b"] true] ≠ ([] : List Deck)) ∧
    (1 ≤ 3) ∧
    ([["a", "a"], ["a", "a"], ["b", "b"]] : List Row).length = 3 ∧
      (∀ j, j * ceilDiv 3 2 < 3 →
        ∃ d chunk,
          [mkDeck ["a"] ["a"] ["a"] true, mkDeck ["b"] ["b"] ["b"] true][j]? = some d ∧
          d.choice (min ((j + 1) * ceilDiv 3 2) 3 - j * ceilDiv 3 2)
            2 2 0 false none (fun _ => 0) 1 = .ok (some chunk) ∧
          chunk = (([["a", "a"], ["a", "a"], ["b", "b"]] : List Row).drop (j * ceilDiv 3 2)).take
            (min ((j + 1) * ceilDiv 3 2) 3 - j * ceilDiv 3 2)) ∧
      ∀ j, 3 ≤ j * ceilDiv 3 2 →
        ([["a", "a"], ["a", "a"], ["b", "b"]] : List Row).drop (j * ceilDiv 3 2) = [] := by
  refine ⟨by decide, by decide, ?_⟩
  have h := deckpool_choice_chunks
    [mkDeck ["a"] ["a"] ["a"] true, mkDeck ["b"] ["b"] ["b"] true] 3 2 2 0 false none
    (fun _ => fun _ => 0) 1 [["a", "a"], ["a", "a"], ["b", "b"]]
    (by decide) (by decide) (by decide)
  simpa using h

/-- **C5.**  With valid fractions and a non-empty pool, a successful
`DeckSampler.sample(n, f_true, f_half)` returns a names array of exactly `n`
rows and a labels array of length `n`, ordered as the true block
(`floor(n*f_true)` rows produced by the pool's force-unique pair sample, all
labelled 1), then the half block (`floor(n*f_half)` one-in/one-out rows), then
the false block (the remaining rows from the all-cards deck); every label
after the true block is 0. -/
theorem decksampler_sample_blocks (deckpool : List Deck) (allcards : Deck) (n : ℕ)
    (f_true f_half : ℚ) (no_lands : Bool) (os1 os2 : ℕ → Oracle) (o3 : Oracle)
    (fuel : ℕ) (names : List Row) (target : List ℕ)
    (hpool : deckpool ≠ [])
    (h1 : 0 ≤ f_true) (h2 : f_true ≤ 1) (h3 : 0 ≤ f_half) (h4 : f_half ≤ 1)
    (h5 : f_true + f_half ≤ 1)
    (h : DeckSampler.sample deckpool allcards n f_true f_half no_lands os1 os2 o3 fuel
        = .ok (some (names, target))) :
    names.length = n ∧ target.length = n ∧
      target = List.replicate (⌊(n : ℚ) * f_true⌋.toNat) 1
        ++ List.replicate (n - ⌊(n : ℚ) * f_true⌋.toNat) 0 ∧
      ∃ r1 r2 r3, names = r1 ++ r2 ++ r3 ∧
        r1.length = ⌊(n : ℚ) * f_true⌋.toNat ∧
        r2.length = ⌊(n : ℚ) * f_half⌋.toNat ∧
        r3.length = n - r1.length - r2.length ∧
        DeckPool.choice deckpool r1.length 2 2 0 true (some no_lands) os1 fuel
          = .ok (some r1) ∧
        DeckPool.choice deckpool r2.length 2 1 1 true (some no_lands) os2 fuel
          = .ok (some r2) ∧
        allcards.choice r3.length 2 2 0 true (some no_lands) o3 fuel = .ok (some r3) := by
  have hblocks : ⌊(n : ℚ) * f_true⌋.toNat + ⌊(n : ℚ) * f_half⌋.toNat ≤ n := by
    have ha : 0 ≤ ⌊(n : ℚ) * f_true⌋ := Int.floor_nonneg.mpr (by positivity)
    have hb : 0 ≤ ⌊(n : ℚ) * f_half⌋ := Int.floor_nonneg.mpr (by positivity)
    have hsum : ⌊(n : ℚ) * f_true⌋ + ⌊(n : ℚ) * f_half⌋
        ≤ ⌊(n : ℚ) * (f_true + f_half)⌋ := by
      refine Int.le_floor.mpr ?_
      push_cast
      have := Int.floor_le ((n : ℚ) * f_true)
      have := Int.floor_le ((n : ℚ) * f_half)
      linarith [mul_add (n : ℚ) f_true f_half]
    have hfn : ⌊(n : ℚ) * (f_true + f_half)⌋ ≤ n := by
      have hle : (n : ℚ) * (f_true + f_half) ≤ (n : ℚ) := by
        nlinarith [Nat.cast_nonneg (α := ℚ) n]
      have := Int.floor_le_floor hle
      rwa [Int.floor_natCast] at this
    omega
  rw [DeckSampler.sample,
    if_neg (not_not_intro ⟨add_nonneg h1 h3, h5⟩),
    if_neg (not_not_intro ⟨h3, h4⟩),
    if_neg (not_not_intro ⟨h1, h2⟩)] at h
  split at h
  · exact Except.noConfusion h
  · simp at h
  · rename_i r1 hr1
    split at h
    · exact Except.noConfusion h
    · simp at h
    · rename_i r2 hr2
      split at h
      · exact Except.noConfusion h
      · simp at h
      · rename_i r3 hr3
        simp only [Except.ok.injEq, Option.some.injEq, Prod.mk.injEq] at h
        obtain ⟨hnames, htarget⟩ := h
        subst hnames
        subst htarget
        have hl1 : r1.length = ⌊(n : ℚ) * f_true⌋.toNat :=
          DeckPool.choice_rows deckpool _ 2 2 0 true (some no_lands) os1 fuel r1
            hpool hr1
        have hl2 : r2.length = ⌊(n : ℚ) * f_half⌋.toNat :=
          DeckPool.choice_rows deckpool _ 2 1 1 true (some no_lands) os2 fuel r2
            hpool hr2
        have hl3 : r3.length = n - ⌊(n : ℚ) * f_true⌋.toNat
            - ⌊(n : ℚ) * f_half⌋.toNat :=
          (Deck.choice_length allcards _ 2 2 0 true (some no_lands) o3 fuel r3 hr3).1
        refine ⟨?_, ?_, rfl, r1, r2, r3, rfl, hl1, hl2, by omega, ?_, ?_, ?_⟩
        · simp only [List.length_append]
          omega
        · simp only [List.length_append, List.length_replicate]
          omega
        · rwa [hl1]
        · rwa [hl2]
        · rw [show r3.length = n - ⌊(n : ℚ) * f_true⌋.toNat
              - ⌊(n : ℚ) * f_half⌋.toNat from hl3]
          exact hr3

/-- **C5 witness.**  `n = 5`, `f_true = 2/5`, `f_half = 1/5` over a one-deck
pool on the universe `{a, b, c, d}`: 5 names rows, labels `[1,1,0,0,0]`,
block lengths 2/1/2. -/
theorem decksampler_sample_blocks_witness :
    ([["a", "a"], ["b", "b"], ["a", "c"], ["a", "a"], ["b", "b"]] : List Row).length = 5 ∧
    ([1, 1, 0, 0, 0] : List ℕ).length = 5 ∧
    ([1, 1, 0, 0, 0] : List ℕ)
        = List.replicate (⌊((5 : ℕ) : ℚ) * mkRat 2 5⌋.toNat) 1
          ++ List.replicate (5 - ⌊((5 : ℕ) : ℚ) * mkRat 2 5⌋.toNat) 0 ∧
    ∃ r1 r2 r3,
      ([["a", "a"], ["b", "b"], ["a", "c"], ["a", "a"], ["b", "b"]] : List Row)
        = r1 ++ r2 ++ r3 ∧
      r1.length = ⌊((5 : ℕ) : ℚ) * mkRat 2 5⌋.toNat ∧
      r2.length = ⌊((5 : ℕ) : ℚ) * mkRat 1 5⌋.toNat ∧
      r3.length = 5 - r1.length - r2.length ∧
      DeckPool.choice [mkDeck ["a", "b"] ["a", "b", "c", "d"] ["a", "b", "c", "d"] true]
        r1.length 2 2 0 true (some false) (fun _ p => p / 2) 10 = .ok (some r1) ∧
      DeckPool.choice [mkDeck ["a", "b"] ["a", "b", "c", "d"] ["a", "b", "c", "d"] true]
        r2.length 2 1 1 true (some false) (fun _ p => p / 2) 10 = .ok (some r2) ∧
      (mkDeck ["a", "b"] ["a", "b", "c", "d"] ["a", "b", "c", "d"] true).choice
        r3.length 2 2 0 true (some false) (fun p => p / 2) 10 = .ok (some r3) :=
  decksampler_sample_blocks
    [mkDeck ["a", "b"] ["a", "b", "c", "d"] ["a", "b", "c", "d"] true]
    (mkDeck ["a", "b"] ["a", "b", "c", "d"] ["a", "b", "c", "d"] true)
    5 (mkRat 2 5) (mkRat 1 5) false (fun _ p => p / 2) (fun _ p => p / 2)
    (fun p => p / 2) 10
    [["a", "a"], ["b", "b"], ["a", "c"], ["a", "a"], ["b", "b"]] [1, 1, 0, 0, 0]
    (by decide)
    (by with_unfolding_all decide) (by with_unfolding_all decide)
    (by with_unfolding_all decide) (by with_unfolding_all decide)
    (by with_unfolding_all decide)
    (by with_unfolding_all decide)

/-- **C6.**  Building a `TagGraph` from
`{"removal": {"enchantment": None, "artifact": None}}` produces exactly the
nodes `mtg`, `mtg:removal`, `mtg:removal:enchantment`, `mtg:removal:artifact`
and one child→parent edge per taxonomy key; `child_parent_iter` (the
reverse-oriented edge DFS from `mtg`) yields exactly those three
`(child, parent)` pairs, and each child node is reachable from `mtg`. -/
theorem taggraph_roundtrip :
    (buildTags exampleTaxonomy).nodes
        = ["mtg", "mtg:removal", "mtg:removal:enchantment", "mtg:removal:artifact"] ∧
    (buildTags exampleTaxonomy).edges
        = [("mtg:removal", "mtg"), ("mtg:removal:enchantment", "mtg:removal"),
            ("mtg:removal:artifact", "mtg:removal")] ∧
    child_parent_iter (buildTags exampleTaxonomy)
        = [("mtg:removal", "mtg"), ("mtg:removal:enchantment", "mtg:removal"),
            ("mtg:removal:artifact", "mtg:removal")] ∧
    ReachableRev (buildTags exampleTaxonomy) "mtg:removal" ∧
    ReachableRev (buildTags exampleTaxonomy) "mtg:removal:enchantment" ∧
    ReachableRev (buildTags exampleTaxonomy) "mtg:removal:artifact" := by
  refine ⟨by decide, by decide, by decide, ?_, ?_, ?_⟩
  · exact .step .root (by decide)
  · exact @ReachableRev.step (buildTags exampleTaxonomy) "mtg:removal:enchantment"
      "mtg:removal" (.step .root (by decide)) (by decide)
  · exact @ReachableRev.step (buildTags exampleTaxonomy) "mtg:removal:artifact"
      "mtg:removal" (.step .root (by decide)) (by decide)

/-- **C7 counterexample.**  The source replaces `AE` with `Ae`, not with the
ligature `Æ`: cleaning the raw name `AEther Vial` (universe offering both
spellings) yields `Aether Vial`, and `Æther Vial` appears neither among the
deck's card names nor among its dropped names. -/
theorem cardname_ae_cleanup_cex :
    (mkDeck ["AEther Vial"] ["Aether Vial", "Æther Vial"] [] true).cardnames
        = ["Aether Vial"] ∧
    "Æther Vial" ∉ (mkDeck ["AEther Vial"] ["Aether Vial", "Æther Vial"] [] true).cardnames ∧
    "Æther Vial" ∉ (mkDeck ["AEther Vial"] ["Aether Vial", "Æther Vial"] [] true).dropcards :=
  ⟨by decide, by decide, by decide⟩

/-- **C7 (amended).**  Card-name cleaning during deck construction replaces
every occurrence of the literal sequence `AE` with `Ae` (not the ligature
`Æ`): for every raw name `s` without two-faced `/` notation whose cleaned
form is not caught by the `Seance` remap, the stripped name with `AE`
replaced by `Ae` is what ends up in the deck — in `cardnames` when the
universe knows it, otherwise in `dropped_card_names`. -/
theorem cardname_ae_cleanup_amended (raw card_universe no_lands_universe : List String)
    (ig : Bool) (s : String) (hs : s ∈ raw)
    (hnoslash : pySplit (pyReplace s "//" "/") '/' = [s])
    (hnotremap : pyReplace (pyStrip s) "AE" "Ae" ≠ "Seance") :
    pyReplace (pyStrip s) "AE" "Ae"
        ∈ (mkDeck raw card_universe no_lands_universe ig).cardnames ∨
      pyReplace (pyStrip s) "AE" "Ae"
        ∈ (mkDeck raw card_universe no_lands_universe ig).dropcards := by
  have h0 : pyStrip s ∈ split_two_part_cards raw := by
    rw [split_two_part_cards, List.mem_dedup, List.mem_flatten]
    refine ⟨[pyStrip s], ?_, List.mem_singleton_self _⟩
    rw [List.mem_map]
    exact ⟨s, hs, by rw [hnoslash]; rfl⟩
  have h1 : pyReplace (pyStrip s) "AE" "Ae"
      ∈ fix_weird_characters (split_two_part_cards raw) := by
    rw [fix_weird_characters, List.mem_dedup, List.mem_map]
    exact ⟨pyStrip s, h0, rfl⟩
  have h2 : pyReplace (pyStrip s) "AE" "Ae" ∈ clean_cards raw := by
    rw [clean_cards, apply_generic_remapping, List.mem_dedup, List.mem_map]
    exact ⟨pyReplace (pyStrip s) "AE" "Ae", h1, by rw [if_neg hnotremap]⟩
  by_cases hu : pyReplace (pyStrip s) "AE" "Ae" ∈ card_universe
  · left
    rw [mkDeck]
    simp only [List.mem_filter, decide_eq_true_eq]
    exact ⟨h2, hu⟩
  · right
    rw [mkDeck]
    simp only [List.mem_filter, decide_eq_true_eq]
    exact ⟨h2, hu⟩

/-- **C7 witness.**  Concrete instance of the amended claim: the raw name
`AEther Vial` lands in the deck as `Aether Vial`. -/
theorem cardname_ae_cleanup_witness :
    pyReplace (pyStrip "AEther Vial") "AE" "Ae"
        ∈ (mkDeck ["AEther Vial"] ["Aether Vial"] [] true).cardnames ∨
      pyReplace (pyStrip "AEther Vial") "AE" "Ae"
        ∈ (mkDeck ["AEther Vial"] ["Aether Vial"] [] true).dropcards :=
  cardname_ae_cleanup_amended ["AEther Vial"] ["Aether Vial"] [] true "AEther Vial"
    (by decide) (by decide) (by decide)

/-- **C8 (code bug).**  With `force_unique=False` the source returns
`np.random.choice(self.cardnames, size)`: every cell — including the
`n_not_in_deck` columns — is drawn from `self.cardnames`, ignoring the
complement pools and `no_lands`, although the function's own docstring
promises that the last `n_not_in_deck` columns come from the complement.
Concretely: deck `{a, b}` over universe `{a, b, c, d}`,
`choice((1, 2), n_in_deck=1, n_not_in_deck=1, force_unique=False)` returns
`[["a", "a"]]` whose second column value `a` is in the deck and not in either
complement pool. -/
theorem deck_choice_nonunique_ignores_complement :
    (mkDeck ["a", "b"] ["a", "b", "c", "d"] ["a", "b", "c", "d"] true).choice
        1 2 1 1 false (some false) (fun _ => 0) 1 = .ok (some [["a", "a"]]) ∧
    "a" ∉ (mkDeck ["a", "b"] ["a", "b", "c", "d"] ["a", "b", "c", "d"] true).compliment_cardnames ∧
    "a" ∉ (mkDeck ["a", "b"] ["a", "b", "c", "d"] ["a", "b", "c", "d"] true).nonland_compliment_cardnames ∧
    "a" ∈ (mkDeck ["a", "b"] ["a", "b", "c", "d"] ["a", "b", "c", "d"] true).cardnames :=
  ⟨by decide, by decide, by decide, by decide⟩

/-- **C9 (code bug).**  `DeckPool.add_decks` never raises: `self.decks +=
decks` fails with `TypeError` on a non-list, but the fallback
`self.decks.append(decks)` accepts *any* object, so the
`raise DeckError("append a single deck or list of decks")` is unreachable.
Passing the integer `5` appends `5` to the member list instead of raising,
and the pool is changed — contradicting the claim.  (Single decks and lists
of decks are appended in insertion order, as the claim says.) -/
theorem deckpool_add_decks_accepts_int :
    add_decks [] (.one (.int 5)) = .ok [PoolItem.int 5] ∧
    (∀ (pool : List PoolItem) (d : Deck),
        add_decks pool (.one (.deck d)) = .ok (pool ++ [.deck d])) ∧
    (∀ (pool l : List PoolItem), add_decks pool (.many l) = .ok (pool ++ l)) ∧
    ∀ (pool : List PoolItem) (arg : AddArg), ∃ res, add_decks pool arg = .ok res := by
  refine ⟨rfl, fun pool d => rfl, fun pool l => rfl, fun pool arg => ?_⟩
  cases arg with
  | one x => exact ⟨pool ++ [x], rfl⟩
  | many l => exact ⟨pool ++ l, rfl⟩

/-- **C10.**  `Deck.choice` computes `no_lands = no_lands or
self.ignore_lands`, so on a deck constructed with `ignore_lands=True` an
explicit `no_lands=False` is ignored: the call behaves exactly like
`no_lands=None` and `no_lands=True`, and any returned force-unique rows draw
their in-deck columns from `nonland_cardnames` and their out-of-deck columns
from `nonland_compliment_cardnames`.  Since `DeckSampler.sample` only
forwards `no_lands` to `choice` (always with `force_unique=True`), sampling
with `no_lands=False` over such decks still excludes lands. -/
theorem choice_no_lands_false_ignored (d : Deck) (hig : d.ignore_lands = true)
    (rows cols n_in n_not : ℕ) (fu : Bool) (o : Oracle) (fuel : ℕ) :
    d.choice rows cols n_in n_not fu (some false) o fuel
        = d.choice rows cols n_in n_not fu none o fuel ∧
    d.choice rows cols n_in n_not fu (some false) o fuel
        = d.choice rows cols n_in n_not fu (some true) o fuel ∧
    ∀ rws, d.choice rows cols n_in n_not true (some false) o fuel = .ok (some rws) →
      ∀ r ∈ rws, (∀ x ∈ r.take n_in, x ∈ d.nonland_cardnames) ∧
        ∀ x ∈ r.drop n_in, x ∈ d.nonland_compliment_cardnames := by
  refine ⟨by simp [Deck.choice, effectiveNoLands, hig], by
    simp [Deck.choice, effectiveNoLands, hig], fun rws h r hr => ?_⟩
  obtain ⟨-, -, hok⟩ := Deck.choice_unique_ok d rows cols n_in n_not (some false) o fuel rws h
  rw [effectiveNoLands_false, hig] at hok
  obtain ⟨-, hin, hnot⟩ := hok r hr
  rw [Deck.inPool] at hin
  rw [Deck.notPool] at hnot
  simp only [if_pos rfl] at hin hnot
  exact ⟨hin, hnot⟩

/-- **C10 witness.**  Concrete instance: on a deck with `ignore_lands=True`,
`no_lands=False` and `no_lands=None` give identical calls. -/
theorem choice_no_lands_false_ignored_witness :
    (mkDeck ["a", "b"] ["a", "b", "c", "d"] ["a", "b"] true).choice
        1 2 2 0 true (some false) (fun _ => 0) 2
      = (mkDeck ["a", "b"] ["a", "b", "c", "d"] ["a", "b"] true).choice
        1 2 2 0 true none (fun _ => 0) 2 :=
  (choice_no_lands_false_ignored
    (mkDeck ["a", "b"] ["a", "b", "c", "d"] ["a", "b"] true) (by decide)
    1 2 2 0 true (fun _ => 0) 2).1

end MtgData
